import Mathlib

/-!
Shallow embedding of the URL-synchronization module of the repository
(source file: the single `url` module).  The module is JavaScript/TypeScript;
its data and operations are translated here as executable Lean definitions:

* JS objects in the args domain become association lists over an inductive
  value type `AVal` (string / number / boolean / nested object / array);
  numbers are modelled as integers (every numeric literal appearing in the
  spec's examples is an integer).
* JS strings are modelled through their character lists; the string
  operations the source uses (`split`, `join`, `replace` of the first
  occurrence) are defined directly on `List Char` with JavaScript semantics.
* The external libraries the module calls are modelled from their documented
  behaviour: `fast-deep-equal` (structural equality, key-order insensitive),
  and `qs` `parse`/`stringify` with the options the source passes
  (`allowDots: true`, `delimiter: ';'`, and `encode: false` on stringify).
* Stateful handlers become explicit state-passing functions; a handler that
  can raise a TypeError returns an `Option`, with `none` marking the throw.
-/

namespace StorybookUrl

/-- JS values appearing in a story's args: strings, numbers (modelled as
integers), booleans, nested objects (ordered association lists, keys unique
as in any JS object) and arrays. -/
inductive AVal : Type where
  | str (s : String)
  | num (n : Int)
  | boolV (b : Bool)
  | obj (fields : List (String × AVal))
  | arr (elems : List AVal)
deriving Repr

/-- JS property read `m[key]` on an object modelled as an association list
(keys are unique, so first match is the only match). -/
def lookupJs {β : Type} : List (String × β) → String → Option β
  | [], _ => none
  | (k, v) :: rest, key => if k == key then some v else lookupJs rest key

mutual
/-- `fast-deep-equal`: strict equality on primitives; for objects, equal key
count and every key of the left object present in the right with deep-equal
value; for arrays, equal length and pointwise deep equality. -/
def deepEqualV : AVal → AVal → Bool
  | AVal.str a, AVal.str b => a == b
  | AVal.num a, AVal.num b => a == b
  | AVal.boolV a, AVal.boolV b => a == b
  | AVal.obj a, AVal.obj b => a.length == b.length && deepEqualFields a b
  | AVal.arr a, AVal.arr b => a.length == b.length && deepEqualElems a b
  | _, _ => false

/-- The per-key loop of `fast-deep-equal` over the left object's entries. -/
def deepEqualFields : List (String × AVal) → List (String × AVal) → Bool
  | [], _ => true
  | (k, v) :: rest, b =>
    (match lookupJs b k with
     | some w => deepEqualV v w
     | none => false)
    && deepEqualFields rest b

/-- The pointwise loop of `fast-deep-equal` over array elements. -/
def deepEqualElems : List AVal → List AVal → Bool
  | [], _ => true
  | _ :: _, [] => false
  | x :: xs, y :: ys => deepEqualV x y && deepEqualElems xs ys
end

/-- `fast-deep-equal(v, u)` where `u` is a possibly missing property
(`undefined` when absent): a defined value is never deep-equal to
`undefined`. -/
def deepEqualVOpt (v : AVal) : Option AVal → Bool
  | some w => deepEqualV v w
  | none => false

/-! ### JavaScript string primitives, on character lists -/

/-- JS `String.prototype.split` with a one-character separator:
`"".split(sep)` is `[""]`, separators at the ends produce empty pieces. -/
def splitOnC (sep : Char) : List Char → List (List Char)
  | [] => [[]]
  | c :: rest =>
    match splitOnC sep rest with
    | [] => [[c]]
    | h :: t => if c == sep then [] :: h :: t else (c :: h) :: t

/-- JS `Array.prototype.join` with a one-character separator. -/
def joinC (sep : Char) : List (List Char) → List Char
  | [] => []
  | [x] => x
  | x :: rest => x ++ sep :: joinC sep rest

/-- JS `String.prototype.replace(old, new)` with one-character string
arguments: replaces only the first occurrence, if any. -/
def replaceFirstC (old new : Char) : List Char → List Char
  | [] => []
  | c :: rest => if c == old then new :: rest else c :: replaceFirstC old new rest

/-- Split a `key=value` part at the first `'='`, as `qs`'s value parser does
(`none` in the second component when the part has no `'='`). -/
def splitEqC : List Char → List Char × Option (List Char)
  | [] => ([], none)
  | c :: rest =>
    if c == '=' then ([], some rest)
    else
      let p := splitEqC rest
      (c :: p.1, p.2)

/-- The `qs` default decoder turns `'+'` into a space and then
percent-decodes.  Percent-decoding is not modelled; every theorem below
restricts its strings to be free of `'%'`, where the decoder is exactly
the plus-for-space substitution. -/
def qsDecodeC (cs : List Char) : List Char :=
  cs.map (fun c => if c == '+' then ' ' else c)

/-! ### `qs.stringify` with `allowDots: true`, `delimiter: ';'`, `encode: false` -/

/-- Rendering of a leaf value by `qs.stringify` (JS `String(value)`). -/
def leafString : AVal → String
  | AVal.str s => s
  | AVal.num n => toString n
  | AVal.boolV b => if b then "true" else "false"
  | AVal.obj _ => ""
  | AVal.arr _ => ""

mutual
/-- Depth-first flattening performed by `qs.stringify`: every leaf becomes a
pair of its key path and its rendered value.  Empty objects and empty arrays
contribute nothing, exactly as `qs` emits nothing for them. -/
def flattenV : AVal → List (List String × String)
  | AVal.str s => [([], s)]
  | AVal.num n => [([], toString n)]
  | AVal.boolV b => [([], if b then "true" else "false")]
  | AVal.obj fields => flattenFields fields
  | AVal.arr xs => flattenArr xs 0

/-- Flattening of an object's fields in order, each child path prefixed with
the field key. -/
def flattenFields : List (String × AVal) → List (List String × String)
  | [] => []
  | (k, v) :: rest =>
    (flattenV v).map (fun p => (k :: p.1, p.2)) ++ flattenFields rest

/-- Flattening of array elements with their indices as path components.
(`qs` renders array indices in bracket form `k[0]`; the model joins them
with dots.  No theorem below evaluates this case: the well-formedness
predicate used by every statement excludes arrays.) -/
def flattenArr : List AVal → Nat → List (List String × String)
  | [], _ => []
  | x :: rest, i =>
    (flattenV x).map (fun p => (toString i :: p.1, p.2)) ++ flattenArr rest (i + 1)
end

/-- One `key=value` segment of `qs.stringify` output: the dot-joined key
path, `'='`, the rendered leaf. -/
def renderSeg (p : List String × String) : List Char :=
  joinC '.' (p.1.map String.toList) ++ '=' :: p.2.toList

/-- `qs.stringify(args, { allowDots: true, delimiter: ';', encode: false })`. -/
def qsStringifyC (args : List (String × AVal)) : List Char :=
  joinC ';' ((flattenFields args).map renderSeg)

/-- `stringifyArgs` from the source: `qs.stringify` with dots, `';'`
delimiter and no encoding, then each `';'`-separated part has its first
`'='` replaced by `':'`. -/
def stringifyArgs (args : List (String × AVal)) : String :=
  String.mk (joinC ';' ((splitOnC ';' (qsStringifyC args)).map (replaceFirstC '=' ':')))

/-! ### `qs.parse` with `allowDots: true`, `delimiter: ';'` -/

/-- Key/value split of one part: everything before the first `'='` is the
key; with no `'='` the value is the empty string (`strictNullHandling` is
off). -/
def parsePairC (cs : List Char) : List Char × List Char :=
  let p := splitEqC cs
  (p.1, (p.2).getD [])

/-- The nested singleton object `qs` builds from one key path and value. -/
def buildPath : List String → String → AVal
  | [], v => AVal.str v
  | k :: rest, v => AVal.obj [(k, buildPath rest v)]

/-- JS property write `m[key] = v` for a key already present. -/
def updateA : List (String × AVal) → String → AVal → List (String × AVal)
  | [], _, _ => []
  | (k, v) :: rest, key, newV =>
    if k == key then (k, newV) :: rest else (k, v) :: updateA rest key newV

mutual
/-- `qs`'s `merge(target, source)`: two objects merge key by key; a leaf
colliding with a leaf combines into an array, and an array absorbs further
values.  (The collision cases approximate `qs`'s array handling; they are
unreachable in every theorem below because the inputs there have distinct
keys at every level.) -/
def mergeVal : AVal → AVal → AVal
  | AVal.obj a, AVal.obj b => AVal.obj (mergeFields a b)
  | AVal.arr a, s => AVal.arr (a ++ [s])
  | t, AVal.arr s => AVal.arr (t :: s)
  | t, s => AVal.arr [t, s]

/-- The key loop of `qs`'s merge: each source entry is merged into the
target when its key is present and appended otherwise. -/
def mergeFields : List (String × AVal) → List (String × AVal) → List (String × AVal)
  | acc, [] => acc
  | acc, (k, v) :: rest =>
    mergeFields
      (match lookupJs acc k with
       | some old => updateA acc k (mergeVal old v)
       | none => acc ++ [(k, v)])
      rest
end

/-- Processing of one `';'`-separated part by `qs.parse`: split off the key
at the first `'='`, decode key and value, split the key at dots
(`allowDots`), and merge the resulting nested singleton into the
accumulator. -/
def qsParsePart (acc : List (String × AVal)) (part : List Char) : List (String × AVal) :=
  let kv := parsePairC part
  let path := (splitOnC '.' (qsDecodeC kv.1)).map String.mk
  let value := String.mk (qsDecodeC kv.2)
  match path with
  | [] => acc
  | k :: rest => mergeFields acc [(k, buildPath rest value)]

/-- `qs.parse(str, { allowDots: true, delimiter: ';' })`, modelled for keys
free of bracket characters (`qs`'s bracket syntax is not modelled; every
theorem below keeps its keys bracket-free) and for `'%'`-free strings (see
`qsDecodeC`).  The empty string parses to the empty object; every part is
processed by `qsParsePart` in order. -/
def qsParseC (cs : List Char) : List (String × AVal) :=
  if cs.isEmpty then []
  else (splitOnC ';' cs).foldl qsParsePart []

/-- `parseArgs` from the source: split the fragment on `';'`, replace the
first `':'` of each part with `'='`, rejoin, and `qs.parse` the result with
`allowDots` and the `';'` delimiter. -/
def parseArgs (argsString : String) : List (String × AVal) :=
  qsParseC (joinC ';' ((splitOnC ';' argsString.toList).map (replaceFirstC ':' '=')))

/-- The effect of one `key=value` pair on the accumulator in `qsParseC`,
restated on the already-split path. -/
def parseStep (acc : List (String × AVal)) (pr : List String × String) :
    List (String × AVal) :=
  match pr.1 with
  | [] => acc
  | k :: rest => mergeFields acc [(k, buildPath rest pr.2)]

/-- The accumulator fold of `qsParseC` over path/value pairs. -/
def foldParse (acc : List (String × AVal)) (prs : List (List String × String)) :
    List (String × AVal) :=
  prs.foldl parseStep acc

/-! ### The round-trip domain

`qs.parse` applies extra rules beyond the dot-splitting modelled here: keys
matching `Object.prototype` property names are dropped, canonical decimal
numerals up to the default `arrayLimit` (20) become array indices, bracket
characters open `qs`'s bracket syntax, the default `depth` (5) cuts key
paths beyond 6 segments, and the default `parameterLimit` (1000) truncates
the segment list.  The default decoder also rewrites `'+'` and percent
escapes.  The predicates below confine the round-trip statement to maps on
which the model above coincides with `qs`. -/

/-- Characters allowed in a key for the round trip: not one of the reserved
delimiters `;`, `:`, `=`, `.`, not a bracket (`qs` bracket syntax), and not
`+` or `%` (rewritten by the decoder). -/
def goodKeyChar (c : Char) : Bool :=
  !(c == ';' || c == ':' || c == '=' || c == '.'
    || c == '[' || c == ']' || c == '+' || c == '%')

/-- Characters allowed in a leaf string value for the round trip: not one of
the reserved delimiters and not `+` or `%`. -/
def goodValChar (c : Char) : Bool :=
  !(c == ';' || c == ':' || c == '=' || c == '.' || c == '+' || c == '%')

/-- Own property names of `Object.prototype`, which `qs.parse` silently
drops as keys. -/
def jsProtoProps : List String :=
  ["__proto__", "constructor", "hasOwnProperty", "isPrototypeOf",
   "propertyIsEnumerable", "toLocaleString", "toString", "valueOf",
   "__defineGetter__", "__defineSetter__", "__lookupGetter__", "__lookupSetter__"]

/-- An ordinary key: non-empty, delimiter-free characters, not a pure
decimal numeral (array-index interpretation) and not an `Object.prototype`
property name. -/
def goodKey (k : String) : Bool :=
  k.toList.all goodKeyChar && !(k == "")
    && !(k.toList.all Char.isDigit) && !(jsProtoProps.contains k)

/-- Unique keys, as in any JS object. -/
def nodupKeysA : List (String × AVal) → Bool
  | [] => true
  | (k, _) :: rest => (lookupJs rest k).isNone && nodupKeysA rest

mutual
/-- Round-trip well-formedness of a value: a delimiter-free string leaf, or
a non-empty object with unique ordinary keys and well-formed children
(numbers, booleans and arrays are excluded: their decoded form is a string,
not the original value). -/
def wfVal : AVal → Bool
  | AVal.str s => s.toList.all goodValChar
  | AVal.obj fields => !fields.isEmpty && nodupKeysA fields && wfFields fields
  | _ => false

/-- Round-trip well-formedness of an object's field list. -/
def wfFields : List (String × AVal) → Bool
  | [] => true
  | (k, v) :: rest => goodKey k && wfVal v && wfFields rest
end

/-- Round-trip well-formedness of a top-level args map (the top map itself
may be empty: both encode and decode map it to the empty string). -/
def wfArgs (args : List (String × AVal)) : Bool :=
  nodupKeysA args && wfFields args

mutual
/-- Object-nesting depth of a value (a leaf has depth 0). -/
def depthV : AVal → Nat
  | AVal.obj fields => depthF fields
  | AVal.arr xs => depthL xs
  | _ => 0

/-- One plus the deepest child, over an object's fields. -/
def depthF : List (String × AVal) → Nat
  | [] => 0
  | (_, v) :: rest => max (1 + depthV v) (depthF rest)

/-- One plus the deepest element, over an array. -/
def depthL : List AVal → Nat
  | [] => 0
  | x :: rest => max (1 + depthV x) (depthL rest)
end

/-- The `qs.parse` default limits under which the model is exact: key paths
of at most 6 segments (`depth: 5`) and at most 1000 `key=value` segments
(`parameterLimit: 1000`). -/
def qsLimitsOk (args : List (String × AVal)) : Bool :=
  decide (depthF args ≤ 6) && decide ((flattenFields args).length ≤ 1000)

/-! ### The location parser `initialUrlSupport` -/

/-- JS truthiness of an optional string: absent (`undefined`) and the empty
string are falsy, every other string is truthy. -/
def truthy : Option String → Bool
  | some s => !(s == "")
  | none => false

/-- The string inside a truthy optional (the branches below only read it
under a truthiness guard). -/
def valOf : Option String → String
  | some s => s
  | none => ""

/-- The two accepted `panelPosition` values. -/
inductive PanelPosition : Type where
  | right
  | bottom
deriving Repr, DecidableEq

/-- The `Additions` layout overrides built by `initialUrlSupport`; a `none`
field was never assigned. -/
structure Additions : Type where
  isFullscreen : Option Bool := none
  showPanel : Option Bool := none
  panelPosition : Option PanelPosition := none
  showNav : Option Bool := none
deriving Repr, DecidableEq

/-- The recognized query keys destructured from the parsed query object,
plus the residual passthrough parameters (`otherParams`).  Values come from
`qs`-style query parsing, so each present value is a string and the
passthrough map has unique keys. -/
structure Query : Type where
  full : Option String := none
  panel : Option String := none
  nav : Option String := none
  addons : Option String := none
  panelRight : Option String := none
  stories : Option String := none
  addonPanel : Option String := none
  selectedKind : Option String := none
  selectedStory : Option String := none
  queryPath : Option String := none
  otherParams : List (String × String) := []
deriving Repr, DecidableEq

/-- `if (full === '1') addition.isFullscreen = true`. -/
def applyFull (q : Query) (a : Additions) : Additions :=
  if q.full == some "1" then { a with isFullscreen := some true } else a

/-- `if (panel) { if right/bottom set panelPosition; else if '0' hide }`. -/
def applyPanel (q : Query) (a : Additions) : Additions :=
  if truthy q.panel then
    if q.panel == some "right" then { a with panelPosition := some PanelPosition.right }
    else if q.panel == some "bottom" then { a with panelPosition := some PanelPosition.bottom }
    else if q.panel == some "0" then { a with showPanel := some false }
    else a
  else a

/-- `if (nav === '0') addition.showNav = false`. -/
def applyNav (q : Query) (a : Additions) : Additions :=
  if q.nav == some "0" then { a with showNav := some false } else a

/-- Legacy: `if (addons === '0') addition.showPanel = false`. -/
def applyAddons (q : Query) (a : Additions) : Additions :=
  if q.addons == some "0" then { a with showPanel := some false } else a

/-- Legacy: `if (panelRight === '1') addition.panelPosition = 'right'`. -/
def applyPanelRight (q : Query) (a : Additions) : Additions :=
  if q.panelRight == some "1" then { a with panelPosition := some PanelPosition.right } else a

/-- Legacy: `if (stories === '0') addition.showNav = false`. -/
def applyStories (q : Query) (a : Additions) : Additions :=
  if q.stories == some "0" then { a with showNav := some false } else a

/-- The sequential layout-field assignments of `initialUrlSupport`, in
source order: current-scheme keys `full`, `panel`, `nav` first, the legacy
keys `addons`, `panelRight`, `stories` after them. -/
def buildAdditions (q : Query) : Additions :=
  applyStories q (applyPanelRight q (applyAddons q (applyNav q (applyPanel q (applyFull q {})))))

/-- Identifier resolution of `initialUrlSupport`: an explicit (truthy)
`storyId` from the URL is kept verbatim; otherwise a truthy
`selectedKind`/`selectedStory` pair synthesizes one through `toId`, a truthy
`selectedKind` alone through `sanitize`, and the original (falsy) value
remains untouched otherwise.  `toId` and `sanitize` live in the external
`csf` package and are taken as parameters. -/
def resolveStoryId (toId : String → String → String) (sanitize : String → String)
    (storyIdFromUrl selectedKind selectedStory : Option String) : Option String :=
  if truthy storyIdFromUrl then storyIdFromUrl
  else if truthy selectedKind && truthy selectedStory then
    some (toId (valOf selectedKind) (valOf selectedStory))
  else if truthy selectedKind then some (sanitize (valOf selectedKind))
  else storyIdFromUrl

/-- Deep equality of two passthrough string maps, as `fast-deep-equal`
computes it on flat string-valued objects: equal key counts and every entry
of the left map found in the right. -/
def deepEqualSMap (a b : List (String × String)) : Bool :=
  a.length == b.length &&
    a.all (fun kv =>
      match lookupJs b kv.1 with
      | some w => kv.2 == w
      | none => false)

/-- A JS object reference: the map's contents together with an allocation
identity, so that "same object reference" is expressible as equality of
`PRef` values (two distinct allocations of deep-equal contents carry
different `id`s). -/
structure PRef : Type where
  id : Nat
  val : List (String × String)
deriving Repr, DecidableEq

/-- The state returned by `initialUrlSupport`. -/
structure InitialState : Type where
  viewMode : Option String
  layout : Additions
  selectedPanel : Option String
  loc : String
  path : String
  customQueryParams : PRef
  storyId : Option String
deriving Repr, DecidableEq

/-- `initialUrlSupport`: layout derivation, `addonPanel` selection,
identifier resolution, and the single-slot passthrough memo.  `prev` is the
module-level `prevParams` slot (`none` before the first call), `freshId` the
allocation identity of the freshly destructured `otherParams` object; the
function returns the new state together with the updated slot, which the
source always sets to the returned `customQueryParams`.  `deepEqual`
applied to an undefined `prevParams` is `false`, so the first call always
returns the fresh object. -/
def initialUrlSupport (toId : String → String → String) (sanitize : String → String)
    (prev : Option PRef) (q : Query) (freshId : Nat)
    (loc path : String) (viewMode : Option String) (storyIdFromUrl : Option String) :
    InitialState × Option PRef :=
  let addition := buildAdditions q
  let selectedPanel := if truthy q.addonPanel then q.addonPanel else none
  let storyId := resolveStoryId toId sanitize storyIdFromUrl q.selectedKind q.selectedStory
  let fresh : PRef := ⟨freshId, q.otherParams⟩
  let customQueryParams :=
    match prev with
    | some p => if deepEqualSMap p.val q.otherParams then p else fresh
    | none => fresh
  (⟨viewMode, addition, selectedPanel, loc, path, customQueryParams, storyId⟩,
   some customQueryParams)

/-! ### `setQueryParams` -/

/-- JS object spread `{ ...a, ...b }` for maps with unique keys: the entries
of `a` in order, overridden key-by-key by `b`, followed by the entries of
`b` whose keys are new. -/
def jsSpread (a b : List (String × String)) : List (String × String) :=
  a.map (fun kv => (kv.1, ((lookupJs b kv.1).getD kv.2)))
    ++ b.filter (fun kv => (lookupJs a kv.1).isNone)

/-- The null-skipping reduce of `setQueryParams`: entries of the input whose
value is `null` are dropped, the rest keep their order. -/
def dropNulls (input : List (String × Option String)) : List (String × String) :=
  input.foldl
    (fun acc kv =>
      match kv.2 with
      | some s => acc ++ [(kv.1, s)]
      | none => acc)
    []

/-- `setQueryParams`: merge the null-stripped input over the current
passthrough map, then commit only when the result is not deep-equal to the
current map.  Returns the stored map after the call and whether a state
commit (`store.setState`) happened. -/
def setQueryParams (customQueryParams : List (String × String))
    (input : List (String × Option String)) : List (String × String) × Bool :=
  let update := jsSpread customQueryParams (dropNulls input)
  if deepEqualSMap customQueryParams update then (customQueryParams, false)
  else (update, true)

/-! ### The args-sync handlers -/

/-- The data the handlers obtain from `getCurrentStoryData`, reduced to what
they read: the item id and `isStory(data) ? data.args : undefined`. -/
structure StoryData : Type where
  id : String
  storyArgs : Option (List (String × AVal))
deriving Repr

/-- The module-level `initialArgs` record.  A key maps to the value last
assigned, which is itself `undefined` (`none`) when the assignment stored
`undefined`; JS reads (`initialArgs[id]`, truthiness, indexing) never
distinguish an absent key from one holding `undefined`, so both are
flattened to `none` by `jsGet`. -/
def Baselines : Type := List (String × Option (List (String × AVal)))

/-- JS read `initialArgs[id]`: `undefined` both for an absent key and for a
key holding `undefined`. -/
def jsGet (b : Baselines) (id : String) : Option (List (String × AVal)) :=
  match lookupJs (b : List _) id with
  | some v => v
  | none => none

/-- JS write `initialArgs[id] = v`: overwrite when present, append when
absent. -/
def setKey (b : Baselines) (id : String) (v : Option (List (String × AVal))) : Baselines :=
  match b, id, v with
  | [], key, newV => [(key, newV)]
  | kv :: rest, key, newV =>
    if kv.1 == key then (key, newV) :: rest else kv :: setKey rest key newV

/-- The diff reduce shared by the `SET_CURRENT_STORY` and
`STORY_ARGS_UPDATED` handlers: keep the entries of `args` whose value is not
deep-equal to the baseline's value at that key.  When the baseline read
yields `undefined` and `args` has at least one entry, the reducer body
indexes into `undefined` and throws a TypeError, modelled as `none`;
with no entries the reducer never runs and the diff is empty. -/
def computeDiff (baseline : Option (List (String × AVal)))
    (args : List (String × AVal)) : Option (List (String × AVal)) :=
  match args with
  | [] => some []
  | _ =>
    match baseline with
    | none => none
    | some bm => some (args.filter (fun kv => !deepEqualVOpt kv.2 (lookupJs bm kv.1)))

/-- A navigation request handed to the router: target URL and the `replace`
option. -/
structure NavReq : Type where
  url : String
  replace : Bool
deriving Repr, DecidableEq

/-- Encode a diff and build the navigation target: a non-empty encoded
string is appended as `&args=`, an empty one leaves the path bare.  The
request is always `replace: true`. -/
def navFor (path : String) (diff : List (String × AVal)) : NavReq :=
  let argsString := stringifyArgs diff
  ⟨path ++ (if argsString.length != 0 then "&args=" ++ argsString else ""), true⟩

/-- The `SET_STORIES` handler: unconditionally assigns
`initialArgs[data.id] = storyArgs`, then merges the decoded `args` query
parameter over the story's declared args and returns that merged map as the
`updateStoryArgs` payload. -/
def onSetStories (b : Baselines) (data : StoryData) (queryArgs : String) :
    Baselines × List (String × AVal) :=
  let b' := setKey b data.id data.storyArgs
  let args := parseArgs queryArgs
  let payload :=
    match data.storyArgs with
    | some sa => (sa.map (fun kv => (kv.1, ((lookupJs args kv.1).getD kv.2))))
        ++ args.filter (fun kv => (lookupJs sa kv.1).isNone)
    | none => args
  (b', payload)

/-- The `SET_CURRENT_STORY` handler: `initialArgs[data.id] =
initialArgs[data.id] || storyArgs` (a present object, even empty, is truthy
and is kept), then diff the story's args against the baseline and navigate
with `replace: true`.  The navigation is `none` when the diff reduce throws
(which requires a missing baseline together with non-empty args). -/
def onSetCurrentStory (b : Baselines) (data : StoryData) (path : String) :
    Baselines × Option NavReq :=
  let cur := jsGet b data.id
  let newVal := match cur with
    | some m => some m
    | none => data.storyArgs
  let b' := setKey b data.id newVal
  let sArgs := data.storyArgs.getD []
  match computeDiff (jsGet b' data.id) sArgs with
  | some diff => (b', some (navFor path diff))
  | none => (b', none)

/-- The `STORY_ARGS_UPDATED` handler: diff the event's args against
`initialArgs[storyId]` and navigate with `replace: true`; `none` models the
TypeError thrown when the baseline is missing and the args map is
non-empty. -/
def onStoryArgsUpdated (b : Baselines) (storyId : String)
    (args : List (String × AVal)) (path : String) : Option NavReq :=
  match computeDiff (jsGet b storyId) args with
  | some diff => some (navFor path diff)
  | none => none

/-- One step of the baseline-state machine under the two events that touch
`initialArgs` (`STORY_ARGS_UPDATED` only reads it). -/
inductive Ev : Type where
  | setStories (data : StoryData) (queryArgs : String)
  | setCurrentStory (data : StoryData) (path : String)
  | storyArgsUpdated (storyId : String) (args : List (String × AVal)) (path : String)

/-- The evolution of `initialArgs` across the handlers. -/
def stepEv (b : Baselines) : Ev → Baselines
  | Ev.setStories data queryArgs => (onSetStories b data queryArgs).1
  | Ev.setCurrentStory data path => (onSetCurrentStory b data path).1
  | Ev.storyArgsUpdated _ _ _ => b

/-! ### Association-list facts about `lookupJs` -/

theorem lookupJs_eq_none {β : Type} {l : List (String × β)} {k : String} :
    lookupJs l k = none ↔ k ∉ l.map Prod.fst := by
  induction l with
  | nil => simp [lookupJs]
  | cons a t ih =>
    obtain ⟨k', v⟩ := a
    by_cases h : k' = k
    · subst h
      simp [lookupJs]
    · have hb : (k' == k) = false := by simpa using h
      simp only [lookupJs, hb, Bool.false_eq_true, if_false, List.map_cons, List.mem_cons, ih]
      constructor
      · intro hn hc
        rcases hc with hc | hc
        · exact h hc.symm
        · exact hn hc
      · intro hn
        exact fun hc => hn (Or.inr hc)

theorem lookupJs_mem {β : Type} {l : List (String × β)} {k : String} {v : β}
    (h : lookupJs l k = some v) : (k, v) ∈ l := by
  induction l with
  | nil => simp [lookupJs] at h
  | cons a t ih =>
    obtain ⟨k', w⟩ := a
    by_cases hk : k' = k
    · subst hk
      simp [lookupJs] at h
      simp [h]
    · have hb : (k' == k) = false := by simpa using hk
      simp only [lookupJs, hb, Bool.false_eq_true, if_false] at h
      exact List.mem_cons_of_mem _ (ih h)

theorem lookupJs_isSome_of_mem {β : Type} {l : List (String × β)} {k : String}
    (h : k ∈ l.map Prod.fst) : (lookupJs l k).isSome = true := by
  cases hl : lookupJs l k with
  | none => exact absurd (lookupJs_eq_none.mp hl) (by simpa using h)
  | some v => rfl

theorem lookupJs_append {β : Type} (l₁ l₂ : List (String × β)) (k : String) :
    lookupJs (l₁ ++ l₂) k =
      match lookupJs l₁ k with
      | some v => some v
      | none => lookupJs l₂ k := by
  induction l₁ with
  | nil => simp [lookupJs]
  | cons a t ih =>
    obtain ⟨k', w⟩ := a
    by_cases hk : k' = k
    · subst hk
      simp [lookupJs]
    · have hb : (k' == k) = false := by simpa using hk
      simpa [lookupJs, hb] using ih

theorem lookupJs_of_nodup_mem {β : Type} {l : List (String × β)}
    (hnd : (l.map Prod.fst).Nodup) {k : String} {v : β}
    (hm : (k, v) ∈ l) : lookupJs l k = some v := by
  induction l with
  | nil => simp at hm
  | cons a t ih =>
    obtain ⟨k', w⟩ := a
    simp only [List.map_cons, List.nodup_cons] at hnd
    rcases List.mem_cons.mp hm with he | ht
    · obtain ⟨h1, h2⟩ := Prod.mk.injEq .. ▸ he
      cases he
      simp [lookupJs]
    · have hk : k' ≠ k := by
        intro h
        subst h
        exact hnd.1 (by simpa using List.mem_map_of_mem Prod.fst ht)
      have hb : (k' == k) = false := by simpa using hk
      simpa [lookupJs, hb] using ih hnd.2 ht

theorem map_eq_self_of_mem {α : Type} {l : List α} {f : α → α}
    (h : ∀ x ∈ l, f x = x) : l.map f = l := by
  induction l with
  | nil => rfl
  | cons a t ih =>
    simp only [List.map_cons, h a (List.mem_cons_self a t),
      ih (fun x hx => h x (List.mem_cons_of_mem a hx))]

theorem lookupJs_setKey (b : Baselines) (id : String) (v : Option (List (String × AVal))) :
    lookupJs (setKey b id v) id = some v := by
  induction b with
  | nil => simp [setKey, lookupJs]
  | cons a t ih =>
    by_cases h : a.1 = id
    · simp [setKey, h, lookupJs]
    · have hb : (a.1 == id) = false := by simpa using h
      simp [setKey, hb, lookupJs, ih]

theorem jsGet_setKey (b : Baselines) (id : String) (v : Option (List (String × AVal))) :
    jsGet (setKey b id v) id = v := by
  simp [jsGet, lookupJs_setKey]

theorem navFor_nil (path : String) : navFor path [] = ⟨path, true⟩ := by
  have h : stringifyArgs [] = "" := rfl
  simp [navFor, h]

/-! ### The claims -/

/-- C2 (counterexample): a location setting the current-scheme key
`panel=bottom` together with the legacy key `panelRight=1` ends with
`panelPosition = right` — the legacy value, not the current-scheme value
`bottom` the claim dictates. -/
theorem c2_counterexample :
    ((initialUrlSupport (fun k _ => k) (fun k => k) none
        { panel := some "bottom", panelRight := some "1" } 0 "loc" "/p" none none).1.layout.panelPosition
      = some PanelPosition.right) ∧
    ((initialUrlSupport (fun k _ => k) (fun k => k) none
        { panel := some "bottom", panelRight := some "1" } 0 "loc" "/p" none none).1.layout.panelPosition
      ≠ some PanelPosition.bottom) := by
  refine ⟨rfl, ?_⟩
  intro h
  rw [show (initialUrlSupport (fun k _ => k) (fun k => k) none
      { panel := some "bottom", panelRight := some "1" } 0 "loc" "/p" none none).1.layout.panelPosition
      = some PanelPosition.right from rfl] at h
  simp at h

/-- C2 (amended): the legacy keys are evaluated after the current-scheme
keys, so on a conflict the legacy-dictated value wins: `panelRight=1` forces
`panelPosition = right` whatever `panel` says, while for `showPanel` and
`showNav` both schemes can only assign `false`, which is what results when
both are set. -/
theorem c2_amended (toId : String → String → String) (sanitize : String → String)
    (prev : Option PRef) (q : Query) (freshId : Nat) (loc path : String)
    (vm sfu : Option String) :
    ((initialUrlSupport toId sanitize prev q freshId loc path vm sfu).1.layout
        = buildAdditions q) ∧
    (q.panelRight = some "1" →
      (buildAdditions q).panelPosition = some PanelPosition.right) ∧
    (q.panel = some "0" → q.addons = some "0" →
      (buildAdditions q).showPanel = some false) ∧
    (q.nav = some "0" → q.stories = some "0" →
      (buildAdditions q).showNav = some false) := by
  have hstn : ∀ a, (applyStories q a).panelPosition = a.panelPosition := by
    intro a
    unfold applyStories
    split <;> rfl
  have hstp : ∀ a, (applyStories q a).showPanel = a.showPanel := by
    intro a
    unfold applyStories
    split <;> rfl
  have hprp : ∀ a, (applyPanelRight q a).showPanel = a.showPanel := by
    intro a
    unfold applyPanelRight
    split <;> rfl
  have hprn : ∀ a, (applyPanelRight q a).showNav = a.showNav := by
    intro a
    unfold applyPanelRight
    split <;> rfl
  refine ⟨rfl, ?_, ?_, ?_⟩
  · intro h
    rw [buildAdditions, hstn, applyPanelRight, h]
    simp
  · intro h1 h2
    rw [buildAdditions, hstp, hprp, applyAddons, h2]
    simp
  · intro h1 h2
    rw [buildAdditions, applyStories, h2]
    simp

/-- C2 (witness). -/
theorem c2_amended_witness :
    (buildAdditions { panel := some "bottom", panelRight := some "1" }).panelPosition
      = some PanelPosition.right :=
  (c2_amended (fun k _ => k) (fun k => k) none
    { panel := some "bottom", panelRight := some "1" } 0 "loc" "/p" none none).2.1 rfl

/-- C3 (counterexample): two successive `SET_STORIES` events for the same
item overwrite the baseline; after loading args `a = "1"` and then `a = "2"`
the stored baseline is the second snapshot, not the first-captured one. -/
theorem c3_counterexample :
    (jsGet (stepEv (stepEv [] (Ev.setStories ⟨"x", some [("a", AVal.str "1")]⟩ ""))
        (Ev.setStories ⟨"x", some [("a", AVal.str "2")]⟩ "")) "x"
      = some [("a", AVal.str "2")]) ∧
    (jsGet (stepEv (stepEv [] (Ev.setStories ⟨"x", some [("a", AVal.str "1")]⟩ ""))
        (Ev.setStories ⟨"x", some [("a", AVal.str "2")]⟩ "")) "x"
      ≠ some [("a", AVal.str "1")]) := by
  refine ⟨rfl, ?_⟩
  intro h
  rw [show jsGet (stepEv (stepEv [] (Ev.setStories ⟨"x", some [("a", AVal.str "1")]⟩ ""))
      (Ev.setStories ⟨"x", some [("a", AVal.str "2")]⟩ "")) "x"
      = some [("a", AVal.str "2")] from rfl] at h
  simp at h

/-- C3 (amended): `SET_CURRENT_STORY` captures the baseline only when it is
absent and never overwrites a present one, and `STORY_ARGS_UPDATED` never
touches the baseline map; `SET_STORIES`, however, unconditionally rewrites
the baseline of the current item, so overwrites happen exactly through
`SET_STORIES`. -/
theorem c3_amended (b : Baselines) (data : StoryData) (path queryArgs : String) :
    ((jsGet b data.id).isSome = true →
      jsGet (stepEv b (Ev.setCurrentStory data path)) data.id = jsGet b data.id) ∧
    (jsGet b data.id = none →
      jsGet (stepEv b (Ev.setCurrentStory data path)) data.id = data.storyArgs) ∧
    (jsGet (stepEv b (Ev.setStories data queryArgs)) data.id = data.storyArgs) ∧
    (∀ sid args p, stepEv b (Ev.storyArgsUpdated sid args p) = b) := by
  refine ⟨?_, ?_, ?_, fun _ _ _ => rfl⟩
  · intro h
    cases hc : jsGet b data.id with
    | none => rw [hc] at h; simp at h
    | some m =>
      simp only [stepEv, onSetCurrentStory, hc]
      cases hd : computeDiff (jsGet (setKey b data.id (some m)) data.id)
          (data.storyArgs.getD []) <;>
        simp [hd, jsGet_setKey]
  · intro h
    simp only [stepEv, onSetCurrentStory, h]
    cases hd : computeDiff (jsGet (setKey b data.id data.storyArgs) data.id)
        (data.storyArgs.getD []) <;>
      simp [hd, jsGet_setKey]
  · simp [stepEv, onSetStories, jsGet_setKey]

/-- C3 (witness). -/
theorem c3_amended_witness :
    jsGet (stepEv [("x", some [("a", AVal.str "1")])]
        (Ev.setCurrentStory ⟨"x", some [("a", AVal.str "9")]⟩ "/p")) "x"
      = jsGet [("x", some [("a", AVal.str "1")])] "x" :=
  (c3_amended [("x", some [("a", AVal.str "1")])] ⟨"x", some [("a", AVal.str "9")]⟩
    "/p" "").1 rfl

/-- C4 (counterexample): a `STORY_ARGS_UPDATED` event for an item with no
captured baseline and a non-empty args map makes the handler throw (the
reducer indexes into an undefined baseline), modelled as `none`; it does
not navigate to the bare path as an empty diff would. -/
theorem c4_counterexample :
    (onStoryArgsUpdated [] "x" [("a", AVal.str "1")] "/p" = none) ∧
    (onStoryArgsUpdated [] "x" [("a", AVal.str "1")] "/p" ≠ some ⟨"/p", true⟩) := by
  refine ⟨rfl, ?_⟩
  intro h
  rw [show onStoryArgsUpdated [] "x" [("a", AVal.str "1")] "/p" = none from rfl] at h
  simp at h

/-- C4 (amended): with no captured baseline, the `STORY_ARGS_UPDATED`
handler completes (with an empty diff and a bare-path replace navigation)
only when the event's args map is empty; for any non-empty args map it
throws instead of treating the diff as empty. -/
theorem c4_amended (b : Baselines) (id path : String) (h : jsGet b id = none) :
    (onStoryArgsUpdated b id [] path = some ⟨path, true⟩) ∧
    (∀ kv args, onStoryArgsUpdated b id (kv :: args) path = none) := by
  constructor
  · simp [onStoryArgsUpdated, computeDiff, navFor_nil]
  · intro kv args
    simp [onStoryArgsUpdated, computeDiff, h]

/-- C4 (witness). -/
theorem c4_amended_witness :
    onStoryArgsUpdated [] "x" [] "/p" = some ⟨"/p", true⟩ :=
  (c4_amended [] "x" "/p" rfl).1

/-- C9: identifier resolution of the location parser: a truthy explicit
identifier is returned verbatim; otherwise a present non-empty
`selectedKind`/`selectedStory` pair yields `toId kind story`, a present
non-empty `selectedKind` alone yields `sanitize kind`, and with neither
present the identifier stays unset. -/
theorem c9_storyId (toId : String → String → String) (sanitize : String → String)
    (prev : Option PRef) (q : Query) (freshId : Nat) (loc path : String)
    (vm sfu : Option String) :
    (truthy sfu = true →
      (initialUrlSupport toId sanitize prev q freshId loc path vm sfu).1.storyId = sfu) ∧
    (∀ k s, truthy sfu = false → q.selectedKind = some k → k ≠ "" →
      q.selectedStory = some s → s ≠ "" →
      (initialUrlSupport toId sanitize prev q freshId loc path vm sfu).1.storyId
        = some (toId k s)) ∧
    (∀ k, truthy sfu = false → q.selectedKind = some k → k ≠ "" →
      truthy q.selectedStory = false →
      (initialUrlSupport toId sanitize prev q freshId loc path vm sfu).1.storyId
        = some (sanitize k)) ∧
    (sfu = none → truthy q.selectedKind = false →
      (initialUrlSupport toId sanitize prev q freshId loc path vm sfu).1.storyId
        = none) := by
  have hs : (initialUrlSupport toId sanitize prev q freshId loc path vm sfu).1.storyId
      = resolveStoryId toId sanitize sfu q.selectedKind q.selectedStory := rfl
  refine ⟨?_, ?_, ?_, ?_⟩
  · intro h
    rw [hs, resolveStoryId, if_pos h]
  · intro k s h hk hk2 hsy hs2
    have htk : truthy q.selectedKind = true := by simp [hk, truthy, hk2]
    have hts : truthy q.selectedStory = true := by simp [hsy, truthy, hs2]
    rw [hs, resolveStoryId, if_neg (by simp [h]),
      if_pos (by simp [htk, hts]), hk, hsy]
    rfl
  · intro k h hk hk2 hsy
    have htk : truthy q.selectedKind = true := by simp [hk, truthy, hk2]
    rw [hs, resolveStoryId, if_neg (by simp [h]),
      if_neg (by simp [hsy]), if_pos htk, hk]
    rfl
  · intro h hk
    rw [hs, resolveStoryId, if_neg (by simp [h, truthy]),
      if_neg (by simp [hk]), if_neg (by simp [hk]), h]

/-- C9 (witness). -/
theorem c9_storyId_witness :
    (initialUrlSupport (fun k s => k ++ "--" ++ s) (fun k => k) none
        { selectedKind := some "Button", selectedStory := some "Primary" }
        0 "loc" "/p" none none).1.storyId
      = some ((fun (k s : String) => k ++ "--" ++ s) "Button" "Primary") :=
  (c9_storyId (fun k s => k ++ "--" ++ s) (fun k => k) none
      { selectedKind := some "Button", selectedStory := some "Primary" }
      0 "loc" "/p" none none).2.1 "Button" "Primary" rfl rfl
    (by simp) rfl (by simp)

theorem dropNulls_go (input : List (String × Option String)) (acc : List (String × String)) :
    input.foldl
        (fun acc kv =>
          match kv.2 with
          | some s => acc ++ [(kv.1, s)]
          | none => acc)
        acc
      = acc ++ dropNulls input := by
  induction input generalizing acc with
  | nil => simp [dropNulls]
  | cons kv rest ih =>
    obtain ⟨k, v⟩ := kv
    cases v with
    | none => simpa [dropNulls, List.foldl_cons] using ih acc
    | some s =>
      rw [List.foldl_cons]
      show List.foldl _ (acc ++ [(k, s)]) rest = _
      rw [ih (acc ++ [(k, s)])]
      have hr : dropNulls ((k, some s) :: rest) = (k, s) :: dropNulls rest := by
        show List.foldl _ ([] ++ [(k, s)]) rest = _
        rw [ih ([] ++ [(k, s)])]
        simp
      rw [hr]
      simp

theorem dropNulls_eq_nil {input : List (String × Option String)}
    (h : ∀ kv ∈ input, kv.2 = none) : dropNulls input = [] := by
  induction input with
  | nil => rfl
  | cons kv rest ih =>
    have hh := h kv (List.mem_cons_self kv rest)
    obtain ⟨k, v⟩ := kv
    simp only at hh
    subst hh
    show List.foldl _ [] rest = []
    rw [show (List.foldl
        (fun acc kv =>
          match kv.2 with
          | some s => acc ++ [(kv.1, s)]
          | none => acc)
        [] rest) = dropNulls rest from rfl]
    exact ih (fun kv hkv => h kv (List.mem_cons_of_mem _ hkv))

theorem jsSpread_nil (a : List (String × String)) : jsSpread a [] = a := by
  simp only [jsSpread, lookupJs, Option.getD_none, List.filter_nil, List.append_nil]
  exact map_eq_self_of_mem (fun x _ => rfl)

theorem deepEqualSMap_refl {l : List (String × String)}
    (h : (l.map Prod.fst).Nodup) : deepEqualSMap l l = true := by
  simp only [deepEqualSMap, beq_self_eq_true, Bool.true_and, List.all_eq_true]
  intro kv hkv
  rw [lookupJs_of_nodup_mem h hkv]
  simp

theorem map_congr_mem {α β : Type} {l : List α} {f g : α → β}
    (h : ∀ x ∈ l, f x = g x) : l.map f = l.map g := by
  induction l with
  | nil => rfl
  | cons a t ih =>
    simp only [List.map_cons, h a (List.mem_cons_self a t),
      ih (fun x hx => h x (List.mem_cons_of_mem a hx))]

theorem dropNulls_cons_some (k s : String) (rest : List (String × Option String)) :
    dropNulls ((k, some s) :: rest) = (k, s) :: dropNulls rest := by
  show List.foldl _ ([] ++ [(k, s)]) rest = _
  rw [dropNulls_go]
  simp

theorem dropNulls_cons_none (k : String) (rest : List (String × Option String)) :
    dropNulls ((k, none) :: rest) = dropNulls rest := rfl

theorem dropNulls_keys_sublist (input : List (String × Option String)) :
    List.Sublist ((dropNulls input).map Prod.fst) (input.map Prod.fst) := by
  induction input with
  | nil => simp [dropNulls]
  | cons kv rest ih =>
    obtain ⟨k, v⟩ := kv
    cases v with
    | none =>
      rw [dropNulls_cons_none]
      exact ih.cons _
    | some s =>
      rw [dropNulls_cons_some]
      simp only [List.map_cons]
      exact ih.cons₂ k

theorem jsSpread_keys (a b : List (String × String)) :
    (jsSpread a b).map Prod.fst
      = a.map Prod.fst ++ (b.filter (fun kv => (lookupJs a kv.1).isNone)).map Prod.fst := by
  simp only [jsSpread, List.map_append, List.map_map]
  congr 1

theorem dropNulls_none_key {input : List (String × Option String)} {k : String}
    (hnd : (input.map Prod.fst).Nodup) (hm : (k, none) ∈ input) :
    lookupJs (dropNulls input) k = none := by
  rw [lookupJs_eq_none]
  induction input with
  | nil => simp at hm
  | cons kv rest ih =>
    obtain ⟨k0, v0⟩ := kv
    simp only [List.map_cons, List.nodup_cons] at hnd
    rcases List.mem_cons.mp hm with he | hr
    · obtain ⟨h1, h2⟩ := Prod.mk.injEq .. ▸ he
      cases he
      show k ∉ (dropNulls ((k, none) :: rest)).map Prod.fst
      rw [show dropNulls ((k, none) :: rest) = dropNulls rest from rfl]
      intro hc
      exact hnd.1 ((dropNulls_keys_sublist rest).subset hc)
    · have hk : k ∈ rest.map Prod.fst := by
        simpa using List.mem_map_of_mem Prod.fst hr
      have hne : k0 ≠ k := fun he => hnd.1 (he ▸ hk)
      cases v0 with
      | none =>
        rw [show dropNulls ((k0, none) :: rest) = dropNulls rest from rfl]
        exact ih hnd.2 hr
      | some s =>
        rw [dropNulls_cons_some]
        simp only [List.map_cons, List.mem_cons]
        intro hc
        rcases hc with hc | hc
        · exact hne hc.symm
        · exact ih hnd.2 hr hc

theorem lookupJs_map_override {cur f : List (String × String)} {k : String}
    (hf : lookupJs f k = none) :
    lookupJs (cur.map (fun kv => (kv.1, (lookupJs f kv.1).getD kv.2))) k
      = lookupJs cur k := by
  induction cur with
  | nil => rfl
  | cons kv rest ih =>
    obtain ⟨k0, v0⟩ := kv
    by_cases hk : k0 = k
    · subst hk
      simp [lookupJs, hf]
    · have hb : (k0 == k) = false := by simpa using hk
      simpa [lookupJs, hb] using ih

theorem lookupJs_jsSpread_of_none {cur f : List (String × String)} {k : String}
    (hf : lookupJs f k = none) :
    lookupJs (jsSpread cur f) k = lookupJs cur k := by
  rw [jsSpread, lookupJs_append, lookupJs_map_override hf]
  cases hc : lookupJs cur k with
  | some v => rfl
  | none =>
    show lookupJs (f.filter _) k = none
    rw [lookupJs_eq_none]
    intro hm
    exact (lookupJs_eq_none.mp hf) ((List.filter_sublist f).map Prod.fst |>.subset hm)

/-- C7: an input whose values are all `null` is skipped entirely by the
merge, so `setQueryParams` leaves the stored passthrough map unchanged and
performs no state commit; more generally a null-valued key of any input is
skipped during the merge, never treated as a deletion — the stored value
at that key is untouched. -/
theorem c7_null_noop (cur : List (String × String)) (input : List (String × Option String))
    (hnd : (cur.map Prod.fst).Nodup) :
    ((∀ kv ∈ input, kv.2 = none) → setQueryParams cur input = (cur, false)) ∧
    (∀ k, (input.map Prod.fst).Nodup → (k, none) ∈ input →
      lookupJs (jsSpread cur (dropNulls input)) k = lookupJs cur k) := by
  constructor
  · intro hnull
    have hd : dropNulls input = [] := dropNulls_eq_nil hnull
    simp [setQueryParams, hd, jsSpread_nil, deepEqualSMap_refl hnd]
  · intro k hndi hm
    exact lookupJs_jsSpread_of_none (dropNulls_none_key hndi hm)

/-- C7 (witness). -/
theorem c7_null_noop_witness :
    setQueryParams [("k", "v")] [("x", none)] = ([("k", "v")], false) :=
  (c7_null_noop [("k", "v")] [("x", none)] (by simp)).1 (by simp)

theorem deepEqualSMap_trans {a b c : List (String × String)}
    (h1 : deepEqualSMap a b = true) (h2 : deepEqualSMap b c = true) :
    deepEqualSMap a c = true := by
  simp only [deepEqualSMap, Bool.and_eq_true, List.all_eq_true, beq_iff_eq] at h1 h2 ⊢
  refine ⟨h1.1.trans h2.1, ?_⟩
  intro kv hkv
  have ha := h1.2 kv hkv
  cases hb : lookupJs b kv.1 with
  | none => rw [hb] at ha; simp at ha
  | some w =>
    rw [hb] at ha
    simp only [beq_iff_eq] at ha
    have hmem : (kv.1, w) ∈ b := lookupJs_mem hb
    have hc := h2.2 (kv.1, w) hmem
    cases hcc : lookupJs c kv.1 with
    | none => rw [hcc] at hc; simp at hc
    | some w2 =>
      rw [hcc] at hc
      simp only [beq_iff_eq] at hc
      simp [ha, hc]

/-- C6: when two successive calls of the location parser extract deep-equal
passthrough maps, the second call returns the very same map object (same
allocation identity) as the first, and the single memo slot holds exactly
the most recent result. -/
theorem c6_memo_stable (toId : String → String → String) (sanitize : String → String)
    (prev0 : Option PRef) (q1 q2 : Query) (id1 id2 : Nat)
    (l1 p1 l2 p2 : String) (v1 s1 v2 s2 : Option String)
    (h : deepEqualSMap q1.otherParams q2.otherParams = true) :
    ((initialUrlSupport toId sanitize
        (initialUrlSupport toId sanitize prev0 q1 id1 l1 p1 v1 s1).2
        q2 id2 l2 p2 v2 s2).1.customQueryParams
      = (initialUrlSupport toId sanitize prev0 q1 id1 l1 p1 v1 s1).1.customQueryParams) ∧
    ((initialUrlSupport toId sanitize prev0 q1 id1 l1 p1 v1 s1).2
      = some (initialUrlSupport toId sanitize prev0 q1 id1 l1 p1 v1 s1).1.customQueryParams) := by
  refine ⟨?_, rfl⟩
  have e1 : (initialUrlSupport toId sanitize prev0 q1 id1 l1 p1 v1 s1).1.customQueryParams
      = (match prev0 with
         | some p => if deepEqualSMap p.val q1.otherParams then p else ⟨id1, q1.otherParams⟩
         | none => ⟨id1, q1.otherParams⟩) := rfl
  have e2 : (initialUrlSupport toId sanitize
        (initialUrlSupport toId sanitize prev0 q1 id1 l1 p1 v1 s1).2
        q2 id2 l2 p2 v2 s2).1.customQueryParams
      = (if deepEqualSMap
            ((initialUrlSupport toId sanitize prev0 q1 id1 l1 p1 v1 s1).1.customQueryParams).val
            q2.otherParams
         then (initialUrlSupport toId sanitize prev0 q1 id1 l1 p1 v1 s1).1.customQueryParams
         else ⟨id2, q2.otherParams⟩) := rfl
  rw [e2]
  cases prev0 with
  | none =>
    rw [e1]
    simp [h]
  | some p =>
    rw [e1]
    by_cases hq : deepEqualSMap p.val q1.otherParams = true
    · simp only [hq, if_true]
      simp [deepEqualSMap_trans hq h]
    · simp only [Bool.not_eq_true] at hq
      simp [hq, h]

/-- C6 (witness). -/
theorem c6_memo_stable_witness :
    (initialUrlSupport (fun k _ => k) (fun k => k)
        (initialUrlSupport (fun k _ => k) (fun k => k) none
          { otherParams := [("a", "1")] } 5 "L" "/p" none none).2
        { otherParams := [("a", "1")], full := some "1" } 9 "L2" "/p2" none none).1.customQueryParams
      = (initialUrlSupport (fun k _ => k) (fun k => k) none
          { otherParams := [("a", "1")] } 5 "L" "/p" none none).1.customQueryParams :=
  (c6_memo_stable (fun k _ => k) (fun k => k) none
    { otherParams := [("a", "1")] } { otherParams := [("a", "1")], full := some "1" }
    5 9 "L" "/p" "L2" "/p2" none none none none (by rfl)).1

theorem filter_keys_mem {β : Type} {l : List (String × β)} {p : String × β → Bool}
    {k : String} (h : k ∈ (l.filter p).map Prod.fst) : k ∈ l.map Prod.fst := by
  rcases List.mem_map.mp h with ⟨kv, hkv, he⟩
  exact he ▸ List.mem_map_of_mem Prod.fst (List.mem_of_mem_filter hkv)

/-- C5: the navigations issued for `STORY_ARGS_UPDATED` and for
`SET_CURRENT_STORY` (with a captured baseline) encode exactly the diff map,
the diff map holds exactly the keys whose current value is
deep-structurally unequal to the baseline value at that key, on the spec's
concrete example (baseline `a=1, b=2`, current `a=1, b=5`) the encoded
fragment is exactly `b:5`, and an empty diff navigates to the bare current
path with no `args=` suffix, always as a replace. -/
theorem c5_diff_minimality :
    (∀ (bm args : List (String × AVal)) (b : Baselines) (id path : String),
      jsGet b id = some bm →
      onStoryArgsUpdated b id args path
        = some (navFor path
            (args.filter (fun kv => !deepEqualVOpt kv.2 (lookupJs bm kv.1))))) ∧
    (∀ (bm args : List (String × AVal)) (k : String), (args.map Prod.fst).Nodup →
      lookupJs (args.filter (fun kv => !deepEqualVOpt kv.2 (lookupJs bm kv.1))) k
        = (match lookupJs args k with
           | some v => if deepEqualVOpt v (lookupJs bm k) then none else some v
           | none => none)) ∧
    (onStoryArgsUpdated [("x", some [("a", AVal.num 1), ("b", AVal.num 2)])] "x"
        [("a", AVal.num 1), ("b", AVal.num 5)] "/p"
      = some ⟨"/p&args=b:5", true⟩) ∧
    (∀ (b : Baselines) (id path : String) (args bm : List (String × AVal)),
      jsGet b id = some bm →
      args.filter (fun kv => !deepEqualVOpt kv.2 (lookupJs bm kv.1)) = [] →
      onStoryArgsUpdated b id args path = some ⟨path, true⟩) ∧
    (∀ (bm : List (String × AVal)) (b : Baselines) (data : StoryData) (path : String),
      jsGet b data.id = some bm →
      (onSetCurrentStory b data path).2
        = some (navFor path ((data.storyArgs.getD []).filter
            (fun kv => !deepEqualVOpt kv.2 (lookupJs bm kv.1))))) := by
  have hmain : ∀ (bm args : List (String × AVal)) (b : Baselines) (id path : String),
      jsGet b id = some bm →
      onStoryArgsUpdated b id args path
        = some (navFor path
            (args.filter (fun kv => !deepEqualVOpt kv.2 (lookupJs bm kv.1)))) := by
    intro bm args b id path hb
    cases args with
    | nil => simp [onStoryArgsUpdated, computeDiff, hb]
    | cons kv rest => simp [onStoryArgsUpdated, computeDiff, hb]
  refine ⟨hmain, ?_, rfl, ?_, ?_⟩
  · intro bm args k hnd
    induction args with
    | nil => simp [lookupJs]
    | cons kv rest ih =>
      obtain ⟨k0, v0⟩ := kv
      simp only [List.map_cons, List.nodup_cons] at hnd
      rw [List.filter_cons]
      by_cases hk : k0 = k
      · subst hk
        by_cases hp : deepEqualVOpt v0 (lookupJs bm k0) = true
        · have hnone : lookupJs (rest.filter
              (fun kv => !deepEqualVOpt kv.2 (lookupJs bm kv.1))) k0 = none := by
            rw [lookupJs_eq_none]
            intro hc
            exact hnd.1 (filter_keys_mem hc)
          simp [hp, hnone, lookupJs]
        · rw [Bool.not_eq_true] at hp
          simp [hp, lookupJs]
      · have hb : (k0 == k) = false := by simpa using hk
        by_cases hp : deepEqualVOpt v0 (lookupJs bm k0) = true
        · simpa [hp, lookupJs, hb] using ih hnd.2
        · rw [Bool.not_eq_true] at hp
          simpa [hp, lookupJs, hb] using ih hnd.2
  · intro b id path args bm hb hf
    rw [hmain bm args b id path hb, hf, navFor_nil]
  · intro bm b data path hb
    simp only [onSetCurrentStory, hb, jsGet_setKey]
    cases hsa : data.storyArgs.getD [] with
    | nil => simp [computeDiff]
    | cons kv rest => simp [computeDiff]

/-- C5 (witness). -/
theorem c5_diff_minimality_witness :
    onStoryArgsUpdated [("x", some [("a", AVal.num 1)])] "x" [("a", AVal.num 1)] "/p"
      = some (navFor "/p"
          ([("a", AVal.num 1)].filter
            (fun kv => !deepEqualVOpt kv.2 (lookupJs [("a", AVal.num 1)] kv.1)))) :=
  c5_diff_minimality.1 [("a", AVal.num 1)] [("a", AVal.num 1)]
    [("x", some [("a", AVal.num 1)])] "x" "/p" rfl

/-- C8: the equality gate and its consequence: whenever the merged result
is deep-equal to the stored map the call commits nothing, and after one
`setQueryParams` call a second call with the same input rebuilds a map
deep-equal to the stored one, so the second of two identical calls is
always a no-op — two identical calls trigger at most one state update. -/
theorem c8_idempotent (cur : List (String × String)) (input : List (String × Option String))
    (h1 : (cur.map Prod.fst).Nodup) (h2 : (input.map Prod.fst).Nodup) :
    ((deepEqualSMap cur (jsSpread cur (dropNulls input)) = true →
        setQueryParams cur input = (cur, false)) ∧
      setQueryParams (setQueryParams cur input).1 input
        = ((setQueryParams cur input).1, false)) := by
  refine ⟨?_, ?_⟩
  · intro hgate
    rw [setQueryParams]
    simp only [hgate, if_true]
  · have hndf : ((dropNulls input).map Prod.fst).Nodup :=
      h2.sublist (dropNulls_keys_sublist input)
    have hB : ∀ kv ∈ jsSpread cur (dropNulls input),
        lookupJs (dropNulls input) kv.1 = none
          ∨ lookupJs (dropNulls input) kv.1 = some kv.2 := by
      intro kv hkv
      rcases List.mem_append.mp hkv with hl | hr
      · rcases List.mem_map.mp hl with ⟨x, _, he⟩
        cases hc : lookupJs (dropNulls input) x.1 with
        | none =>
          subst he
          exact Or.inl hc
        | some s =>
          subst he
          simp only [hc, Option.getD_some]
          exact Or.inr (by simpa using hc)
      · have hmem : kv ∈ dropNulls input := List.mem_of_mem_filter hr
        right
        have : (kv.1, kv.2) ∈ dropNulls input := by simpa using hmem
        exact lookupJs_of_nodup_mem hndf this
    have hmap : (jsSpread cur (dropNulls input)).map
        (fun kv => (kv.1, (lookupJs (dropNulls input) kv.1).getD kv.2))
        = jsSpread cur (dropNulls input) := by
      refine map_eq_self_of_mem ?_
      intro x hx
      rcases hB x hx with h | h <;> simp [h]
    have hfilter : (dropNulls input).filter
        (fun kv => (lookupJs (jsSpread cur (dropNulls input)) kv.1).isNone) = [] := by
      rw [List.filter_eq_nil_iff]
      intro kv hkv
      have hmemkeys : kv.1 ∈ (jsSpread cur (dropNulls input)).map Prod.fst := by
        rw [jsSpread_keys]
        rcases hc : lookupJs cur kv.1 with _ | w
        · refine List.mem_append.mpr (Or.inr ?_)
          refine List.mem_map.mpr ⟨kv, List.mem_filter.mpr ⟨hkv, by simp [hc]⟩, rfl⟩
        · refine List.mem_append.mpr (Or.inl ?_)
          by_contra hcon
          rw [lookupJs_eq_none.mpr hcon] at hc
          exact Option.noConfusion hc
      have hsome := lookupJs_isSome_of_mem hmemkeys
      intro hno
      rw [Option.isNone_iff_eq_none] at hno
      rw [hno] at hsome
      exact Bool.noConfusion hsome
    have hspread2 : jsSpread (jsSpread cur (dropNulls input)) (dropNulls input)
        = jsSpread cur (dropNulls input) := by
      conv_lhs => rw [jsSpread]
      rw [hmap, hfilter, List.append_nil]
    have hndu : ((jsSpread cur (dropNulls input)).map Prod.fst).Nodup := by
      rw [jsSpread_keys]
      refine List.Nodup.append h1 ?_ ?_
      · exact hndf.sublist ((List.filter_sublist (dropNulls input)).map Prod.fst)
      · intro k hk1 hk2
        rcases List.mem_map.mp hk2 with ⟨kv, hkvf, he⟩
        have hp := (List.mem_filter.mp hkvf).2
        rw [Option.isNone_iff_eq_none] at hp
        rw [he] at hp
        exact (lookupJs_eq_none.mp hp) hk1
    by_cases he : deepEqualSMap cur (jsSpread cur (dropNulls input)) = true
    · have h1st : setQueryParams cur input = (cur, false) := by
        rw [setQueryParams]
        simp only [he, if_true]
      rw [h1st]
      exact h1st
    · rw [Bool.not_eq_true] at he
      have h1st : setQueryParams cur input = (jsSpread cur (dropNulls input), true) := by
        rw [setQueryParams]
        simp only [he]
        rfl
      rw [h1st]
      show setQueryParams (jsSpread cur (dropNulls input)) input = _
      rw [setQueryParams]
      simp only [hspread2, deepEqualSMap_refl hndu, if_true]

/-- C8 (witness). -/
theorem c8_idempotent_witness :
    setQueryParams (setQueryParams [("k", "v")] [("x", some "1"), ("k", some "w")]).1
        [("x", some "1"), ("k", some "w")]
      = ((setQueryParams [("k", "v")] [("x", some "1"), ("k", some "w")]).1, false) :=
  (c8_idempotent [("k", "v")] [("x", some "1"), ("k", some "w")] (by simp) (by simp)).2

/-- C10: a `SET_CURRENT_STORY` event whose current item data is not a story
(`storyArgs` undefined) neither throws nor encodes an args fragment: the
diff over the empty args map is empty and a replace navigation to the bare
current path is issued. -/
theorem c10_nonstory (b : Baselines) (id path : String) :
    (onSetCurrentStory b ⟨id, none⟩ path).2 = some ⟨path, true⟩ := by
  simp [onSetCurrentStory, computeDiff, navFor_nil]

/-! ### Character-list lemmas for the codec -/

theorem splitOnC_ne_nil (sep : Char) (cs : List Char) : splitOnC sep cs ≠ [] := by
  induction cs with
  | nil => simp [splitOnC]
  | cons c rest ih =>
    simp only [splitOnC]
    cases hs : splitOnC sep rest with
    | nil => simp
    | cons h t =>
      by_cases hc : (c == sep) = true <;> simp [hc]

theorem splitOnC_no_sep {sep : Char} {x : List Char} (h : sep ∉ x) :
    splitOnC sep x = [x] := by
  induction x with
  | nil => rfl
  | cons c rest ih =>
    have hcne : c ≠ sep := fun he => h (he ▸ List.mem_cons_self c rest)
    have hc : (c == sep) = false := by simpa using hcne
    have hr : sep ∉ rest := fun hm => h (List.mem_cons_of_mem c hm)
    simp only [splitOnC, ih hr]
    simp [hc]

theorem splitOnC_cons_sep (sep : Char) (r : List Char) :
    splitOnC sep (sep :: r) = [] :: splitOnC sep r := by
  simp only [splitOnC]
  cases hs : splitOnC sep r with
  | nil => exact absurd hs (splitOnC_ne_nil sep r)
  | cons h t => simp

theorem splitOnC_append_sep {sep : Char} {x r : List Char} (hx : sep ∉ x) :
    splitOnC sep (x ++ sep :: r) = x :: splitOnC sep r := by
  induction x with
  | nil => simpa using splitOnC_cons_sep sep r
  | cons c t ih =>
    have hcne : c ≠ sep := fun he => hx (he ▸ List.mem_cons_self c t)
    have hc : (c == sep) = false := by simpa using hcne
    have ht : sep ∉ t := fun hm => hx (List.mem_cons_of_mem c hm)
    rw [List.cons_append]
    simp only [splitOnC, ih ht]
    simp [hc]

theorem splitOnC_joinC {sep : Char} {L : List (List Char)} (hne : L ≠ [])
    (h : ∀ l ∈ L, sep ∉ l) : splitOnC sep (joinC sep L) = L := by
  induction L with
  | nil => exact absurd rfl hne
  | cons x t ih =>
    cases t with
    | nil => simpa [joinC] using splitOnC_no_sep (h x (by simp))
    | cons y t2 =>
      rw [show joinC sep (x :: y :: t2) = x ++ sep :: joinC sep (y :: t2) from rfl]
      rw [splitOnC_append_sep (h x (by simp))]
      rw [ih (by simp) (fun l hl => h l (List.mem_cons_of_mem x hl))]

theorem joinC_ne_nil {sep : Char} {s : List Char} {t : List (List Char)}
    (hs : s ≠ []) : joinC sep (s :: t) ≠ [] := by
  cases t with
  | nil => simpa [joinC] using hs
  | cons y t2 =>
    rw [show joinC sep (s :: y :: t2) = s ++ sep :: joinC sep (y :: t2) from rfl]
    simp [hs]

theorem mem_joinC {sep : Char} {L : List (List Char)} {c : Char}
    (h : c ∈ joinC sep L) : c = sep ∨ ∃ l ∈ L, c ∈ l := by
  induction L with
  | nil => simp [joinC] at h
  | cons x t ih =>
    cases t with
    | nil =>
      simp only [joinC] at h
      exact Or.inr ⟨x, by simp, h⟩
    | cons y t2 =>
      rw [show joinC sep (x :: y :: t2) = x ++ sep :: joinC sep (y :: t2) from rfl] at h
      rcases List.mem_append.mp h with hx | hrest
      · exact Or.inr ⟨x, by simp, hx⟩
      · rcases List.mem_cons.mp hrest with he | hj
        · exact Or.inl he
        · rcases ih hj with he | ⟨l, hl, hc⟩
          · exact Or.inl he
          · exact Or.inr ⟨l, List.mem_cons_of_mem x hl, hc⟩

theorem replaceFirstC_append {old new : Char} {a b : List Char} (h : old ∉ a) :
    replaceFirstC old new (a ++ old :: b) = a ++ new :: b := by
  induction a with
  | nil => simp [replaceFirstC]
  | cons c t ih =>
    have hcne : c ≠ old := fun he => h (he ▸ List.mem_cons_self c t)
    have hc : (c == old) = false := by simpa using hcne
    have ht : old ∉ t := fun hm => h (List.mem_cons_of_mem c hm)
    simp [replaceFirstC, hc, ih ht]

theorem splitEqC_append {a b : List Char} (h : '=' ∉ a) :
    splitEqC (a ++ '=' :: b) = (a, some b) := by
  induction a with
  | nil => simp [splitEqC]
  | cons c t ih =>
    have hcne : c ≠ '=' := fun he => h (he ▸ List.mem_cons_self c t)
    have hc : (c == '=') = false := by simpa using hcne
    have ht : ('=' : Char) ∉ t := fun hm => h (List.mem_cons_of_mem c hm)
    simp [splitEqC, hc, ih ht]

theorem qsDecodeC_id {cs : List Char} (h : '+' ∉ cs) : qsDecodeC cs = cs := by
  unfold qsDecodeC
  refine map_eq_self_of_mem ?_
  intro c hc
  have hcne : c ≠ '+' := fun he => h (he ▸ hc)
  have hne : (c == '+') = false := by simpa using hcne
  simp [hne]

theorem stringMk_toList (s : String) : String.mk s.toList = s := rfl

/-! ### Facts about the flattening performed by `qs.stringify` -/

mutual
theorem flattenV_ne_nil (v : AVal) (h : wfVal v = true) : flattenV v ≠ [] := by
  cases v with
  | str s => simp [flattenV]
  | num n => simp [wfVal] at h
  | boolV b => simp [wfVal] at h
  | arr xs => simp [wfVal] at h
  | obj fields =>
    simp only [wfVal, Bool.and_eq_true] at h
    have hfne : fields ≠ [] := by
      intro hnil
      subst hnil
      simp at h
    rw [show flattenV (AVal.obj fields) = flattenFields fields from rfl]
    exact flattenFields_ne_nil fields h.2 hfne

theorem flattenFields_ne_nil (fields : List (String × AVal)) (h : wfFields fields = true)
    (hne : fields ≠ []) : flattenFields fields ≠ [] := by
  cases fields with
  | nil => exact absurd rfl hne
  | cons kv rest =>
    obtain ⟨k, v⟩ := kv
    simp only [wfFields, Bool.and_eq_true] at h
    rw [show flattenFields ((k, v) :: rest)
        = (flattenV v).map (fun p => (k :: p.1, p.2)) ++ flattenFields rest from rfl]
    intro hc
    rcases List.append_eq_nil.mp hc with ⟨hmap, _⟩
    exact flattenV_ne_nil v h.1.2 (List.map_eq_nil_iff.mp hmap)
end

mutual
theorem flattenV_props (v : AVal) (h : wfVal v = true) :
    ∀ pr ∈ flattenV v,
      (∀ comp ∈ pr.1, comp.toList.all goodKeyChar = true)
        ∧ pr.2.toList.all goodValChar = true := by
  cases v with
  | str s =>
    intro pr hpr
    rw [show flattenV (AVal.str s) = [([], s)] from rfl] at hpr
    rcases List.mem_singleton.mp hpr with rfl
    exact ⟨fun comp hc => absurd hc (List.not_mem_nil comp), h⟩
  | num n => simp [wfVal] at h
  | boolV b => simp [wfVal] at h
  | arr xs => simp [wfVal] at h
  | obj fields =>
    intro pr hpr
    simp only [wfVal, Bool.and_eq_true] at h
    rw [show flattenV (AVal.obj fields) = flattenFields fields from rfl] at hpr
    exact ⟨(flattenFields_props fields h.2 pr hpr).2.1,
      (flattenFields_props fields h.2 pr hpr).2.2⟩

theorem flattenFields_props (fields : List (String × AVal)) (h : wfFields fields = true) :
    ∀ pr ∈ flattenFields fields,
      pr.1 ≠ []
        ∧ (∀ comp ∈ pr.1, comp.toList.all goodKeyChar = true)
        ∧ pr.2.toList.all goodValChar = true := by
  cases fields with
  | nil =>
    intro pr hpr
    simp [flattenFields] at hpr
  | cons kv rest =>
    obtain ⟨k, v⟩ := kv
    simp only [wfFields, Bool.and_eq_true] at h
    intro pr hpr
    rw [show flattenFields ((k, v) :: rest)
        = (flattenV v).map (fun p => (k :: p.1, p.2)) ++ flattenFields rest from rfl] at hpr
    rcases List.mem_append.mp hpr with hl | hr
    · rcases List.mem_map.mp hl with ⟨q, hq, he⟩
      have hv := flattenV_props v h.1.2 q hq
      subst he
      refine ⟨by simp, ?_, hv.2⟩
      intro comp hcomp
      rcases List.mem_cons.mp hcomp with rfl | hcq
      · have hg := h.1.1
        simp only [goodKey, Bool.and_eq_true] at hg
        exact hg.1.1.1
      · exact hv.1 comp hcq
    · exact flattenFields_props rest h.2 pr hr
end

/-! ### Facts about the merge performed by `qs.parse` -/

theorem updateA_eq_of_lookup {m : List (String × AVal)} {k : String} {x : AVal}
    (h : lookupJs m k = some x) : updateA m k x = m := by
  induction m with
  | nil => simp [lookupJs] at h
  | cons kv rest ih =>
    obtain ⟨k0, v0⟩ := kv
    by_cases hk : k0 = k
    · subst hk
      simp only [lookupJs, beq_self_eq_true, if_true, Option.some.injEq] at h
      simp [updateA, h]
    · have hb : (k0 == k) = false := by simpa using hk
      simp only [lookupJs, hb, Bool.false_eq_true, if_false] at h
      simp [updateA, hb, ih h]

theorem lookupJs_updateA_self {m : List (String × AVal)} {k : String} {w x : AVal}
    (h : lookupJs m k = some w) : lookupJs (updateA m k x) k = some x := by
  induction m with
  | nil => simp [lookupJs] at h
  | cons kv rest ih =>
    obtain ⟨k0, v0⟩ := kv
    by_cases hk : k0 = k
    · subst hk
      simp [updateA, lookupJs]
    · have hb : (k0 == k) = false := by simpa using hk
      simp only [lookupJs, hb, Bool.false_eq_true, if_false] at h
      simp [updateA, hb, lookupJs, ih h]

theorem updateA_updateA (m : List (String × AVal)) (k : String) (x y : AVal) :
    updateA (updateA m k x) k y = updateA m k y := by
  induction m with
  | nil => rfl
  | cons kv rest ih =>
    obtain ⟨k0, v0⟩ := kv
    by_cases hk : k0 = k
    · subst hk
      simp [updateA]
    · have hb : (k0 == k) = false := by simpa using hk
      simp [updateA, hb, ih]

theorem updateA_append_self {acc : List (String × AVal)} {k : String} {x y : AVal}
    (h : lookupJs acc k = none) : updateA (acc ++ [(k, x)]) k y = acc ++ [(k, y)] := by
  induction acc with
  | nil => simp [updateA]
  | cons kv rest ih =>
    obtain ⟨k0, v0⟩ := kv
    by_cases hk : k0 = k
    · subst hk
      simp [lookupJs] at h
    · have hb : (k0 == k) = false := by simpa using hk
      simp only [lookupJs, hb, Bool.false_eq_true, if_false] at h
      simp [updateA, hb, ih h]

theorem lookupJs_append_self {acc : List (String × AVal)} {k : String} {x : AVal}
    (h : lookupJs acc k = none) : lookupJs (acc ++ [(k, x)]) k = some x := by
  rw [lookupJs_append, h]
  simp [lookupJs]

theorem mergeFields_single (acc : List (String × AVal)) (k : String) (v : AVal) :
    mergeFields acc [(k, v)]
      = match lookupJs acc k with
        | some old => updateA acc k (mergeVal old v)
        | none => acc ++ [(k, v)] := by
  cases h : lookupJs acc k with
  | some old => simp [mergeFields, h]
  | none => simp [mergeFields, h]

theorem foldParse_prepend (prs : List (List String × String))
    (hne : ∀ pr ∈ prs, pr.1 ≠ []) :
    ∀ (acc : List (String × AVal)) (k : String) (cur : List (String × AVal)),
      lookupJs acc k = some (AVal.obj cur) →
      foldParse acc (prs.map (fun pr => (k :: pr.1, pr.2)))
        = updateA acc k (AVal.obj (foldParse cur prs)) := by
  induction prs with
  | nil =>
    intro acc k cur h
    simp only [List.map_nil]
    rw [show foldParse acc [] = acc from rfl, show foldParse cur [] = cur from rfl]
    exact (updateA_eq_of_lookup h).symm
  | cons p0 rest ih =>
    intro acc k cur h
    obtain ⟨path, val⟩ := p0
    cases path with
    | nil =>
      have := hne ([], val) (List.mem_cons_self _ _)
      simp at this
    | cons q qs =>
      have hstep : parseStep acc (k :: q :: qs, val)
          = updateA acc k (AVal.obj (parseStep cur (q :: qs, val))) := by
        rw [show parseStep acc (k :: q :: qs, val)
            = mergeFields acc [(k, buildPath (q :: qs) val)] from rfl]
        rw [mergeFields_single, h]
        show updateA acc k (mergeVal (AVal.obj cur) (buildPath (q :: qs) val)) = _
        rw [show buildPath (q :: qs) val = AVal.obj [(q, buildPath qs val)] from rfl]
        rw [show mergeVal (AVal.obj cur) (AVal.obj [(q, buildPath qs val)])
            = AVal.obj (mergeFields cur [(q, buildPath qs val)]) by simp [mergeVal]]
        rfl
      rw [show ((( (q :: qs), val) :: rest).map (fun pr => (k :: pr.1, pr.2)))
          = (k :: q :: qs, val) :: rest.map (fun pr => (k :: pr.1, pr.2)) from rfl]
      rw [show foldParse acc ((k :: q :: qs, val) :: rest.map (fun pr => (k :: pr.1, pr.2)))
          = foldParse (parseStep acc (k :: q :: qs, val))
              (rest.map (fun pr => (k :: pr.1, pr.2))) from rfl]
      rw [hstep]
      have h2 : lookupJs (updateA acc k (AVal.obj (parseStep cur (q :: qs, val)))) k
          = some (AVal.obj (parseStep cur (q :: qs, val))) :=
        lookupJs_updateA_self h
      rw [ih (fun pr hpr => hne pr (List.mem_cons_of_mem _ hpr)) _ k _ h2]
      rw [updateA_updateA]
      rfl

mutual
theorem foldParse_flattenV (v : AVal) (hwf : wfVal v = true) :
    ∀ (acc : List (String × AVal)) (k : String), lookupJs acc k = none →
      foldParse acc ((flattenV v).map (fun pr => (k :: pr.1, pr.2))) = acc ++ [(k, v)] := by
  cases v with
  | num n => simp [wfVal] at hwf
  | boolV b => simp [wfVal] at hwf
  | arr xs => simp [wfVal] at hwf
  | str s =>
    intro acc k hk
    rw [show (flattenV (AVal.str s)).map (fun pr => (k :: pr.1, pr.2)) = [([k], s)] from rfl]
    rw [show foldParse acc [([k], s)] = parseStep acc ([k], s) from rfl]
    rw [show parseStep acc ([k], s) = mergeFields acc [(k, buildPath [] s)] from rfl]
    rw [mergeFields_single, hk]
    rfl
  | obj gs =>
    intro acc k hk
    simp only [wfVal, Bool.and_eq_true] at hwf
    have hgne : gs ≠ [] := by
      intro hnil
      subst hnil
      simp at hwf
    have hwff : wfFields gs = true := hwf.2
    have hnd : nodupKeysA gs = true := hwf.1.2
    have hFne : flattenFields gs ≠ [] := flattenFields_ne_nil gs hwff hgne
    have hprops := flattenFields_props gs hwff
    rw [show flattenV (AVal.obj gs) = flattenFields gs from rfl]
    obtain ⟨fp0, fps, hF⟩ : ∃ h t, flattenFields gs = h :: t := by
      cases hFc : flattenFields gs with
      | nil => exact absurd hFc hFne
      | cons a b => exact ⟨a, b, rfl⟩
    have hp0 : fp0 ∈ flattenFields gs := hF ▸ List.mem_cons_self _ _
    obtain ⟨q, qs, hq⟩ : ∃ q qs, fp0.1 = q :: qs := by
      cases hpp : fp0.1 with
      | nil => exact absurd hpp (hprops fp0 hp0).1
      | cons a b => exact ⟨a, b, rfl⟩
    have hlook2 : lookupJs (acc ++ [(k, AVal.obj [])]) k = some (AVal.obj []) :=
      lookupJs_append_self hk
    have hstepeq : parseStep acc (k :: fp0.1, fp0.2)
        = parseStep (acc ++ [(k, AVal.obj [])]) (k :: fp0.1, fp0.2) := by
      rw [hq]
      rw [show parseStep acc (k :: q :: qs, fp0.2)
          = mergeFields acc [(k, buildPath (q :: qs) fp0.2)] from rfl]
      rw [show parseStep (acc ++ [(k, AVal.obj [])]) (k :: q :: qs, fp0.2)
          = mergeFields (acc ++ [(k, AVal.obj [])]) [(k, buildPath (q :: qs) fp0.2)] from rfl]
      rw [mergeFields_single, mergeFields_single, hk, hlook2]
      show acc ++ [(k, buildPath (q :: qs) fp0.2)]
          = updateA (acc ++ [(k, AVal.obj [])]) k
              (mergeVal (AVal.obj []) (buildPath (q :: qs) fp0.2))
      rw [updateA_append_self hk]
      rw [show buildPath (q :: qs) fp0.2 = AVal.obj [(q, buildPath qs fp0.2)] from rfl]
      rw [show mergeVal (AVal.obj []) (AVal.obj [(q, buildPath qs fp0.2)])
          = AVal.obj (mergeFields [] [(q, buildPath qs fp0.2)]) by simp [mergeVal]]
      rw [show mergeFields ([] : List (String × AVal)) [(q, buildPath qs fp0.2)]
          = [(q, buildPath qs fp0.2)] by rw [mergeFields_single]; rfl]
    have hfold : foldParse acc ((flattenFields gs).map (fun pr => (k :: pr.1, pr.2)))
        = foldParse (acc ++ [(k, AVal.obj [])])
            ((flattenFields gs).map (fun pr => (k :: pr.1, pr.2))) := by
      rw [hF]
      rw [show ((fp0 :: fps).map (fun pr => (k :: pr.1, pr.2)))
          = (k :: fp0.1, fp0.2) :: fps.map (fun pr => (k :: pr.1, pr.2)) from rfl]
      rw [show foldParse acc ((k :: fp0.1, fp0.2) :: fps.map (fun pr => (k :: pr.1, pr.2)))
          = foldParse (parseStep acc (k :: fp0.1, fp0.2))
              (fps.map (fun pr => (k :: pr.1, pr.2))) from rfl]
      rw [hstepeq]
      rfl
    rw [hfold]
    rw [foldParse_prepend (flattenFields gs) (fun pr hpr => (hprops pr hpr).1)
        _ k [] hlook2]
    rw [foldParse_flattenFields gs hwff hnd [] (fun kv _ => rfl)]
    rw [List.nil_append]
    exact updateA_append_self hk

theorem foldParse_flattenFields (fields : List (String × AVal))
    (hwf : wfFields fields = true) (hnd : nodupKeysA fields = true) :
    ∀ (acc : List (String × AVal)), (∀ kv ∈ fields, lookupJs acc kv.1 = none) →
      foldParse acc (flattenFields fields) = acc ++ fields := by
  cases fields with
  | nil =>
    intro acc _
    simp [flattenFields, foldParse]
  | cons kv0 rest =>
    obtain ⟨k, v⟩ := kv0
    simp only [wfFields, Bool.and_eq_true] at hwf
    simp only [nodupKeysA, Bool.and_eq_true] at hnd
    intro acc hacc
    rw [show flattenFields ((k, v) :: rest)
        = (flattenV v).map (fun p => (k :: p.1, p.2)) ++ flattenFields rest from rfl]
    rw [show foldParse acc
          ((flattenV v).map (fun p => (k :: p.1, p.2)) ++ flattenFields rest)
        = foldParse (foldParse acc ((flattenV v).map (fun p => (k :: p.1, p.2))))
            (flattenFields rest) from List.foldl_append ..]
    rw [foldParse_flattenV v hwf.1.2 acc k (hacc (k, v) (List.mem_cons_self _ _))]
    have hacc2 : ∀ kv ∈ rest, lookupJs (acc ++ [(k, v)]) kv.1 = none := by
      intro kv hkv
      have h1 : lookupJs acc kv.1 = none := hacc kv (List.mem_cons_of_mem _ hkv)
      have hkne : (k == kv.1) = false := by
        by_cases he : k = kv.1
        · exfalso
          have hmem : k ∈ rest.map Prod.fst := he ▸ List.mem_map_of_mem Prod.fst hkv
          have hsome := lookupJs_isSome_of_mem hmem
          rw [Option.isNone_iff_eq_none] at hnd
          rw [hnd.1] at hsome
          exact Bool.noConfusion hsome
        · simpa using he
      rw [lookupJs_append, h1]
      simp [lookupJs, hkne]
    rw [foldParse_flattenFields rest hwf.2 hnd.2 (acc ++ [(k, v)]) hacc2]
    simp
end

/-! ### Assembling the round trip -/

theorem foldl_congr_mem {α β : Type} {l : List β} {f g : α → β → α}
    (h : ∀ (a : α), ∀ b ∈ l, f a b = g a b) :
    ∀ init, l.foldl f init = l.foldl g init := by
  induction l with
  | nil => intro init; rfl
  | cons b t ih =>
    intro init
    rw [List.foldl_cons, List.foldl_cons, h init b (List.mem_cons_self b t)]
    exact ih (fun a b2 hb2 => h a b2 (List.mem_cons_of_mem b hb2)) _

theorem pathC_chars {p : List String}
    (h : ∀ comp ∈ p, comp.toList.all goodKeyChar = true) :
    ∀ c ∈ joinC '.' (p.map String.toList), c = '.' ∨ goodKeyChar c = true := by
  intro c hc
  rcases mem_joinC hc with he | ⟨l, hl, hcl⟩
  · exact Or.inl he
  · rcases List.mem_map.mp hl with ⟨comp, hcomp, rfl⟩
    exact Or.inr (List.all_eq_true.mp (h comp hcomp) c hcl)

theorem pathC_facts {p : List String}
    (h : ∀ comp ∈ p, comp.toList.all goodKeyChar = true) :
    ';' ∉ joinC '.' (p.map String.toList)
      ∧ '=' ∉ joinC '.' (p.map String.toList)
      ∧ ':' ∉ joinC '.' (p.map String.toList)
      ∧ '+' ∉ joinC '.' (p.map String.toList) := by
  refine ⟨?_, ?_, ?_, ?_⟩ <;>
    · intro hmem
      rcases pathC_chars h _ hmem with he | hg
      · exact absurd he (by decide)
      · exact absurd hg (by decide)

theorem valC_facts {s : String} (h : s.toList.all goodValChar = true) :
    ';' ∉ s.toList ∧ ':' ∉ s.toList ∧ '+' ∉ s.toList := by
  refine ⟨?_, ?_, ?_⟩ <;>
    · intro hmem
      exact absurd (List.all_eq_true.mp h _ hmem) (by decide)

theorem not_mem_append_cons {c m : Char} {P V : List Char}
    (hP : c ∉ P) (hm : c ≠ m) (hV : c ∉ V) : c ∉ P ++ m :: V := by
  intro h
  rcases List.mem_append.mp h with h1 | h2
  · exact hP h1
  · rcases List.mem_cons.mp h2 with he | h3
    · exact hm he
    · exact hV h3

theorem renderSeg_ne_nil (pr : List String × String) : renderSeg pr ≠ [] := by
  unfold renderSeg
  cases joinC '.' (pr.1.map String.toList) <;> simp

theorem qsParsePart_renderSeg (pr : List String × String)
    (hp1 : pr.1 ≠ [])
    (hkeys : ∀ comp ∈ pr.1, comp.toList.all goodKeyChar = true)
    (hval : pr.2.toList.all goodValChar = true)
    (acc : List (String × AVal)) :
    qsParsePart acc (renderSeg pr) = parseStep acc pr := by
  have hPf := pathC_facts hkeys
  have hVf := valC_facts hval
  have hdots : ∀ l ∈ pr.1.map String.toList, '.' ∉ l := by
    intro l hl
    rcases List.mem_map.mp hl with ⟨comp, hcomp, rfl⟩
    intro hmem
    exact absurd (List.all_eq_true.mp (hkeys comp hcomp) _ hmem) (by decide)
  have h1 : splitEqC (joinC '.' (pr.1.map String.toList) ++ '=' :: pr.2.toList)
      = (joinC '.' (pr.1.map String.toList), some pr.2.toList) := splitEqC_append hPf.2.1
  simp only [qsParsePart, renderSeg, parsePairC, h1, Option.getD_some]
  rw [qsDecodeC_id hPf.2.2.2, qsDecodeC_id hVf.2.2]
  rw [splitOnC_joinC (by simpa using hp1) hdots]
  rw [List.map_map]
  rw [show List.map (String.mk ∘ String.toList) pr.1 = pr.1 from
    (map_congr_mem (fun comp _ => stringMk_toList comp)).trans (List.map_id pr.1)]
  rfl

/-- C1 (counterexample): the map `{a: 1}` with a number value — its key and
value contain none of the reserved delimiter characters — stringifies to
`a:1`, which parses back to the string `"1"`; the result is not deep-equal
to the original map. -/
theorem c1_counterexample :
    (deepEqualFields (parseArgs (stringifyArgs [("a", AVal.num 1)]))
        [("a", AVal.num 1)] = false) ∧
    (parseArgs (stringifyArgs [("a", AVal.num 1)]) = [("a", AVal.str "1")]) :=
  ⟨rfl, rfl⟩

/-- C1 (amended): `parseArgs (stringifyArgs a) = a` (hence deep-equal) for
every args map whose leaf values are all strings, with ordinary keys
(non-empty, not pure decimal numerals, not `Object.prototype` property
names, free of the delimiters and of `[`, `]`, `+`, `%`), string values
free of the delimiters and of `+`, `%`, no empty nested object, unique keys
per level, and within `qs.parse`'s default depth and parameter limits.
Number and boolean leaves decode to their string rendering instead. -/
theorem c1_roundtrip (args : List (String × AVal))
    (hwf : wfArgs args = true) (hqs : qsLimitsOk args = true) :
    parseArgs (stringifyArgs args) = args := by
  by_cases hnil : args = []
  · subst hnil
    rfl
  · have hwf2 : nodupKeysA args = true ∧ wfFields args = true := by
      simpa [wfArgs, Bool.and_eq_true] using hwf
    have hFne : flattenFields args ≠ [] := flattenFields_ne_nil args hwf2.2 hnil
    have hprops := flattenFields_props args hwf2.2
    have hsegnosemi : ∀ pr ∈ flattenFields args, ';' ∉ renderSeg pr := by
      intro pr hpr
      have hp := hprops pr hpr
      exact not_mem_append_cons (pathC_facts hp.2.1).1 (by decide) (valC_facts hp.2.2).1
    have hcolnosemi : ∀ pr ∈ flattenFields args,
        ';' ∉ joinC '.' (pr.1.map String.toList) ++ ':' :: pr.2.toList := by
      intro pr hpr
      have hp := hprops pr hpr
      exact not_mem_append_cons (pathC_facts hp.2.1).1 (by decide) (valC_facts hp.2.2).1
    have hmapne : (flattenFields args).map renderSeg ≠ [] := by
      simpa using hFne
    have hsplit1 : splitOnC ';' (qsStringifyC args)
        = (flattenFields args).map renderSeg := by
      rw [show qsStringifyC args = joinC ';' ((flattenFields args).map renderSeg) from rfl]
      refine splitOnC_joinC hmapne ?_
      intro l hl
      rcases List.mem_map.mp hl with ⟨pr, hpr, rfl⟩
      exact hsegnosemi pr hpr
    have hrep1 : ((flattenFields args).map renderSeg).map (replaceFirstC '=' ':')
        = (flattenFields args).map
            (fun pr => joinC '.' (pr.1.map String.toList) ++ ':' :: pr.2.toList) := by
      rw [List.map_map]
      refine map_congr_mem ?_
      intro pr hpr
      show replaceFirstC '=' ':' (renderSeg pr) = _
      rw [show renderSeg pr
          = joinC '.' (pr.1.map String.toList) ++ '=' :: pr.2.toList from rfl]
      exact replaceFirstC_append (pathC_facts (hprops pr hpr).2.1).2.1
    have hstr : stringifyArgs args = String.mk (joinC ';'
        ((flattenFields args).map
          (fun pr => joinC '.' (pr.1.map String.toList) ++ ':' :: pr.2.toList))) := by
      rw [show stringifyArgs args = String.mk (joinC ';'
          ((splitOnC ';' (qsStringifyC args)).map (replaceFirstC '=' ':'))) from rfl]
      rw [hsplit1, hrep1]
    rw [hstr]
    rw [show parseArgs (String.mk (joinC ';' ((flattenFields args).map
        (fun pr => joinC '.' (pr.1.map String.toList) ++ ':' :: pr.2.toList))))
      = qsParseC (joinC ';' ((splitOnC ';' (joinC ';' ((flattenFields args).map
          (fun pr => joinC '.' (pr.1.map String.toList) ++ ':' :: pr.2.toList)))).map
          (replaceFirstC ':' '='))) from rfl]
    have hcolne : (flattenFields args).map
        (fun pr => joinC '.' (pr.1.map String.toList) ++ ':' :: pr.2.toList) ≠ [] := by
      simpa using hFne
    rw [splitOnC_joinC hcolne (by
      intro l hl
      rcases List.mem_map.mp hl with ⟨pr, hpr, rfl⟩
      exact hcolnosemi pr hpr)]
    have hrep2 : ((flattenFields args).map
          (fun pr => joinC '.' (pr.1.map String.toList) ++ ':' :: pr.2.toList)).map
          (replaceFirstC ':' '=')
        = (flattenFields args).map renderSeg := by
      rw [List.map_map]
      refine map_congr_mem ?_
      intro pr hpr
      show replaceFirstC ':' '='
          (joinC '.' (pr.1.map String.toList) ++ ':' :: pr.2.toList) = renderSeg pr
      rw [show renderSeg pr
          = joinC '.' (pr.1.map String.toList) ++ '=' :: pr.2.toList from rfl]
      exact replaceFirstC_append (pathC_facts (hprops pr hpr).2.1).2.2.1
    rw [hrep2]
    obtain ⟨s0, srest, hS⟩ : ∃ h t, (flattenFields args).map renderSeg = h :: t := by
      cases hSc : (flattenFields args).map renderSeg with
      | nil => exact absurd hSc hmapne
      | cons a b => exact ⟨a, b, rfl⟩
    have hjne : joinC ';' ((flattenFields args).map renderSeg) ≠ [] := by
      rw [hS]
      refine joinC_ne_nil ?_
      have hs0 : s0 ∈ (flattenFields args).map renderSeg := hS ▸ List.mem_cons_self _ _
      rcases List.mem_map.mp hs0 with ⟨pr, _, rfl⟩
      exact renderSeg_ne_nil pr
    rw [show qsParseC (joinC ';' ((flattenFields args).map renderSeg))
        = if (joinC ';' ((flattenFields args).map renderSeg)).isEmpty then []
          else (splitOnC ';' (joinC ';' ((flattenFields args).map renderSeg))).foldl
            qsParsePart [] from rfl]
    rw [if_neg (by simpa [List.isEmpty_iff] using hjne)]
    rw [splitOnC_joinC hmapne (by
      intro l hl
      rcases List.mem_map.mp hl with ⟨pr, hpr, rfl⟩
      exact hsegnosemi pr hpr)]
    rw [List.foldl_map]
    rw [foldl_congr_mem (fun a pr hpr =>
      qsParsePart_renderSeg pr (hprops pr hpr).1 (hprops pr hpr).2.1
        (hprops pr hpr).2.2 a) []]
    rw [show (flattenFields args).foldl parseStep []
        = foldParse [] (flattenFields args) from rfl]
    rw [foldParse_flattenFields args hwf2.2 hwf2.1 [] (fun kv _ => rfl)]
    rfl

/-- C1 (witness). -/
theorem c1_roundtrip_witness :
    (wfArgs [("a", AVal.str "1"), ("b", AVal.obj [("c", AVal.str "x")])] = true) ∧
    (qsLimitsOk [("a", AVal.str "1"), ("b", AVal.obj [("c", AVal.str "x")])] = true) ∧
    (parseArgs (stringifyArgs [("a", AVal.str "1"), ("b", AVal.obj [("c", AVal.str "x")])])
      = [("a", AVal.str "1"), ("b", AVal.obj [("c", AVal.str "x")])]) :=
  ⟨by decide, by decide,
    c1_roundtrip [("a", AVal.str "1"), ("b", AVal.obj [("c", AVal.str "x")])]
      (by decide) (by decide)⟩

end StorybookUrl
